import Mathlib

/-!
# Verification of the cipherseal keyed-LSB image watermarking core

Shallow embedding of `src/service/core/watermarker.py` (and the variant
generator in `src/service/api/watermarker.py`): UTF-8 payload/bit codec,
the keyed location-sequence generator (seed folding plus CPython's
`random.Random`, i.e. the MT19937 generator with CPython's seeding and
`shuffle`), and the embed/extract walks.  Images are modelled as functions
from pixel coordinates to RGB channel triples; machine integers are `Nat`
with explicit reduction `% 2^32` where CPython wraps at 32 bits.
-/

namespace Cipherseal

/-- The delimiter `"1111111111111110"`: fifteen `1` bits then a `0` bit,
appended after the payload bits (watermarker.py line 26). -/
def DELIMITER : List Bool :=
  [true, true, true, true, true, true, true, true,
   true, true, true, true, true, true, true, false]

/-- The 8 bits of a byte, most-significant first, as produced by
`format(byte, '08b')`. -/
def bitsOfByte (b : Nat) : List Bool :=
  [b.testBit 7, b.testBit 6, b.testBit 5, b.testBit 4,
   b.testBit 3, b.testBit 2, b.testBit 1, b.testBit 0]

/-- Number of trailing one-bits of a byte (a proof-support measure used
to show the delimiter's run of fifteen ones cannot occur inside a
UTF-8 bit stream). -/
def tOnes (b : Nat) : Nat :=
  ((bitsOfByte b).reverse.takeWhile (fun x => x)).length

/-- UTF-8 encoding of a Unicode scalar value given as a natural. -/
def utf8EncodeN (n : Nat) : List Nat :=
  if n < 0x80 then [n]
  else if n < 0x800 then [0xC0 + n / 0x40, 0x80 + n % 0x40]
  else if n < 0x10000 then
    [0xE0 + n / 0x1000, 0x80 + (n / 0x40) % 0x40, 0x80 + n % 0x40]
  else
    [0xF0 + n / 0x40000, 0x80 + (n / 0x1000) % 0x40,
     0x80 + (n / 0x40) % 0x40, 0x80 + n % 0x40]

/-- UTF-8 encoding of a single character (Python `str.encode('utf-8')`
byte production for one character). -/
def utf8EncodeChar (c : Char) : List Nat :=
  utf8EncodeN c.toNat

/-- Encoding `text_string.encode('utf-8')` as a byte list. -/
def utf8Encode (s : String) : List Nat :=
  s.data.flatMap utf8EncodeChar

/-- The function `_str_to_binary`: the payload's UTF-8 bytes, each expanded to 8 bits
most-significant first (watermarker.py lines 34-36). -/
def str_to_binary (s : String) : List Bool :=
  (utf8Encode s).flatMap bitsOfByte

/-- Reassemble one byte from 8 bits, most-significant first
(`int(byte_segment, 2)`). -/
def byteOfBits (bits : List Bool) : Nat :=
  bits.foldl (fun acc b => acc * 2 + (if b then 1 else 0)) 0

/-- The loop of `_binary_to_str` collecting 8-bit segments into bytes,
breaking when fewer than 8 bits remain (watermarker.py lines 47-55). -/
def chunkBytes : List Bool → List Nat
  | b0 :: b1 :: b2 :: b3 :: b4 :: b5 :: b6 :: b7 :: rest =>
      byteOfBits [b0, b1, b2, b3, b4, b5, b6, b7] :: chunkBytes rest
  | _ => []

/-- Is `b` a UTF-8 continuation byte `10xxxxxx`? -/
def isCont (b : Nat) : Bool := 0x80 ≤ b && b < 0xC0

/-- Admissible second byte after a three-byte lead `b1` (excludes
overlong encodings and surrogates, as CPython's UTF-8 decoder does). -/
def cont3ok (b1 b2 : Nat) : Bool :=
  if b1 = 0xE0 then 0xA0 ≤ b2 && b2 < 0xC0
  else if b1 = 0xED then 0x80 ≤ b2 && b2 < 0xA0
  else isCont b2

/-- Admissible second byte after a four-byte lead `b1` (excludes
overlong encodings and values above U+10FFFF). -/
def cont4ok (b1 b2 : Nat) : Bool :=
  if b1 = 0xF0 then 0x90 ≤ b2 && b2 < 0xC0
  else if b1 = 0xF4 then 0x80 ≤ b2 && b2 < 0x90
  else isCont b2

/-- The Unicode replacement character U+FFFD emitted for ill-formed
input by `bytes.decode('utf-8', errors='replace')`. -/
def repChar : Nat := 0xFFFD

/-- UTF-8 decoding with replacement of ill-formed subsequences, the
behaviour of `byte_array.decode('utf-8', errors='replace')`: each
maximal ill-formed subpart becomes one U+FFFD.  Returns the decoded
scalar values. -/
def utf8DecodeLossy : List Nat → List Nat
  | [] => []
  | b1 :: t1 =>
    if b1 < 0x80 then b1 :: utf8DecodeLossy t1
    else if b1 < 0xC2 then repChar :: utf8DecodeLossy t1
    else if b1 < 0xE0 then
      match t1 with
      | [] => [repChar]
      | b2 :: t2 =>
        if isCont b2 then
          ((b1 - 0xC0) * 0x40 + (b2 - 0x80)) :: utf8DecodeLossy t2
        else repChar :: utf8DecodeLossy (b2 :: t2)
    else if b1 < 0xF0 then
      match t1 with
      | [] => [repChar]
      | b2 :: t2 =>
        if cont3ok b1 b2 then
          match t2 with
          | [] => [repChar]
          | b3 :: t3 =>
            if isCont b3 then
              ((b1 - 0xE0) * 0x1000 + (b2 - 0x80) * 0x40 + (b3 - 0x80)) ::
                utf8DecodeLossy t3
            else repChar :: utf8DecodeLossy (b3 :: t3)
        else repChar :: utf8DecodeLossy (b2 :: t2)
    else if b1 < 0xF5 then
      match t1 with
      | [] => [repChar]
      | b2 :: t2 =>
        if cont4ok b1 b2 then
          match t2 with
          | [] => [repChar]
          | b3 :: t3 =>
            if isCont b3 then
              match t3 with
              | [] => [repChar]
              | b4 :: t4 =>
                if isCont b4 then
                  ((b1 - 0xF0) * 0x40000 + (b2 - 0x80) * 0x1000 +
                    (b3 - 0x80) * 0x40 + (b4 - 0x80)) :: utf8DecodeLossy t4
                else repChar :: utf8DecodeLossy (b4 :: t4)
            else repChar :: utf8DecodeLossy (b3 :: t3)
        else repChar :: utf8DecodeLossy (b2 :: t2)
    else repChar :: utf8DecodeLossy t1

/-- The function `_binary_to_str` (watermarker.py lines 39-62): truncate the bit
string to a whole number of bytes, assemble 8-bit segments, and decode
as UTF-8 with lossy replacement; result as a list of scalar values. -/
def binary_to_str (bits : List Bool) : List Nat :=
  let truncated :=
    if bits.length % 8 ≠ 0 then bits.take (bits.length / 8 * 8) else bits
  utf8DecodeLossy (chunkBytes truncated)

/-- The result of `_binary_to_str` packaged as a Lean string. -/
def binary_to_str_string (bits : List Bool) : String :=
  ⟨(binary_to_str bits).map Char.ofNat⟩

end Cipherseal

namespace MT19937

/-! ## CPython's `random.Random`: MT19937 with CPython seeding

Modelled from CPython `Modules/_randommodule.c` and `Lib/random.py`,
the pinned PRNG behind `random.Random(seed)`, `rng.shuffle(...)` in
`_get_pixel_sequence`.  All state words are naturals below `2^32`. -/

def mask32 : Nat := 4294967296

/-- The 624-word `uint32_t` state array is represented packed
little-endian into a single natural (word `i` at bit offset `32 * i`),
so that every array access is arithmetic the kernel evaluates fast;
the algorithm acting on the words is unchanged. -/
def wordGet (st i : Nat) : Nat :=
  (st >>> (32 * i)) &&& 0xFFFFFFFF

/-- Writing `mt[i] = v` on the packed state. -/
def wordSet (st i v : Nat) : Nat :=
  st + (v <<< (32 * i)) - ((wordGet st i) <<< (32 * i))

/-- Strict application on a natural: semantically `f n` (see
`strictNat_eq`), but stated by cases so that evaluation reduces `n` to
a literal before the continuation, keeping kernel reduction of the
sequential state loops below iterative depth. -/
def strictNat {α : Type} (n : Nat) (f : Nat → α) : α :=
  match n with
  | 0 => f 0
  | m + 1 => f (m + 1)

/-- The function `init_genrand`: fill the 624-word state from a 32-bit seed;
`mt[i] = 1812433253 * (mt[i-1] ^ (mt[i-1] >> 30)) + i` (wrapping). -/
def initGenrandAux (st prev i : Nat) : Nat → Nat
  | 0 => st
  | count + 1 =>
    let v := (1812433253 * (prev ^^^ (prev >>> 30)) + i) % mask32
    strictNat (wordSet st i v) fun st' => initGenrandAux st' v (i + 1) count

def initGenrand (s : Nat) : Nat :=
  initGenrandAux (s % mask32) (s % mask32) 1 623

/-- First mixing pass of `init_by_array`, with the running indices `i`
into the state and `j` into the key, and the loop counter as fuel. -/
def ibaPass1 (key : List Nat) : Nat → Nat → Nat → Nat → Nat × Nat
  | st, i, _, 0 => (st, i)
  | st, i, j, k + 1 =>
    let prev := wordGet st (i - 1)
    let v := (((wordGet st i) ^^^ (((prev ^^^ (prev >>> 30)) * 1664525) % mask32))
              + key.getD j 0 + j) % mask32
    let st := wordSet st i v
    let i := i + 1
    let j := j + 1
    let (st, i) := if i ≥ 624 then (wordSet st 0 (wordGet st 623), 1) else (st, i)
    let j := if j ≥ key.length then 0 else j
    strictNat st fun st' => ibaPass1 key st' i j k

/-- Second mixing pass of `init_by_array`. -/
def ibaPass2 : Nat → Nat → Nat → Nat × Nat
  | st, i, 0 => (st, i)
  | st, i, k + 1 =>
    let prev := wordGet st (i - 1)
    let v := (((wordGet st i) ^^^ (((prev ^^^ (prev >>> 30)) * 1566083941) % mask32))
              + (mask32 - i % mask32)) % mask32
    let st := wordSet st i v
    let i := i + 1
    let (st, i) := if i ≥ 624 then (wordSet st 0 (wordGet st 623), 1) else (st, i)
    strictNat st fun st' => ibaPass2 st' i k

/-- The function `init_by_array(key)`: seed the state from an array of 32-bit words. -/
def initByArray (key : List Nat) : Nat :=
  let st := initGenrand 19650218
  let (st, i) := ibaPass1 key st 1 0 (max 624 key.length)
  let (st, _) := ibaPass2 st i 623
  wordSet st 0 0x80000000

/-- Generator state: the 624 packed state words and the output index. -/
structure State where
  mt : Nat
  index : Nat

/-- Seeding `random.Random(n)` for a non-negative integer seed below `2^32`:
the key array is the single 32-bit chunk of `n`, and the output index
starts exhausted. -/
def ofSeed (n : Nat) : State :=
  { mt := initByArray [n % mask32], index := 624 }

/-- One step of the MT19937 state regeneration ("twist"), updating word
`kk` in place exactly as the three C loops do. -/
def twistAux : Nat → Nat → Nat → Nat
  | st, _, 0 => st
  | st, kk, count + 1 =>
    let y := ((wordGet st kk) &&& 0x80000000) |||
             ((wordGet st ((kk + 1) % 624)) &&& 0x7FFFFFFF)
    let v := (wordGet st ((kk + 397) % 624)) ^^^ (y >>> 1)
              ^^^ (if y % 2 = 1 then 0x9908b0df else 0)
    strictNat (wordSet st kk v) fun st' => twistAux st' (kk + 1) count

def twist (st : Nat) : Nat :=
  twistAux st 0 624

/-- The function `genrand_uint32`: regenerate on exhaustion, then temper and emit
the word at the current index. -/
def genrand (s : State) : Nat × State :=
  let (mt, idx) := if s.index ≥ 624 then (twist s.mt, 0) else (s.mt, s.index)
  let y := wordGet mt idx
  let y := y ^^^ (y >>> 11)
  let y := y ^^^ ((y <<< 7) &&& 0x9d2c5680)
  let y := y ^^^ ((y <<< 15) &&& 0xefc60000)
  let y := y ^^^ (y >>> 18)
  (y, { mt := mt, index := idx + 1 })

/-- The method `getrandbits(k)` for `1 ≤ k ≤ 32`: the top `k` bits of one output. -/
def getrandbits (s : State) (k : Nat) : Nat × State :=
  let (y, s') := genrand s
  (y >>> (32 - k), s')

/-- Computing `int.bit_length()` via fuel (the fuel is an upper bound on the
number of halvings; it is never exhausted for `fuel ≥ n`). -/
def bitLengthAux : Nat → Nat → Nat
  | _, 0 => 0
  | 0, _ + 1 => 0
  | n + 1, fuel + 1 => bitLengthAux ((n + 1) / 2) fuel + 1

def bitLength (n : Nat) : Nat := bitLengthAux n n

/-- The rejection loop of `Random._randbelow_with_getrandbits`.  CPython
retries without bound; here a fuel of `2^32` attempts stands in for the
unbounded loop, returning 0 on exhaustion (unreachable in the concrete
evaluations below, and irrelevant to the permutation arguments). -/
def randbelowAux (k n : Nat) : State → Nat → Nat × State
  | s, 0 => (0, s)
  | s, fuel + 1 =>
    let p := getrandbits s k
    if p.1 < n then p else randbelowAux k n p.2 fuel

/-- The method `_randbelow(n)`: a draw in `[0, n)` (for `n ≥ 1`). -/
def randbelow (s : State) (n : Nat) : Nat × State :=
  randbelowAux (bitLength n) n s 4294967296

/-- The swap `x[i], x[j] = x[j], x[i]`. -/
def swap {α : Type} [Inhabited α] (l : List α) (i j : Nat) : List α :=
  (l.set i (l.getD j default)).set j (l.getD i default)

/-- The body of `random.shuffle`, iterating `i` downward from
`len(x) - 1` to `1`: `j = _randbelow(i + 1)` then swap. -/
def shuffleAux {α : Type} [Inhabited α] : State → List α → Nat → State × List α
  | s, l, 0 => (s, l)
  | s, l, i + 1 =>
    let p := randbelow s (i + 2)
    shuffleAux p.2 (swap l (i + 1) p.1) i

/-- The method `rng.shuffle(x)`: Fisher-Yates with MT19937 draws. -/
def shuffle {α : Type} [Inhabited α] (s : State) (l : List α) : State × List α :=
  shuffleAux s l (l.length - 1)

end MT19937

namespace Cipherseal

/-- The seed fold of `_get_pixel_sequence` (watermarker.py lines 70-72):
`seed_val = (seed_val * 31 + char_code) & 0xFFFFFFFF` over the key's
UTF-8 bytes in order, starting from 0. -/
def seedFold (bytes : List Nat) : Nat :=
  bytes.foldl (fun acc b => (acc * 31 + b) % MT19937.mask32) 0

/-- A bit-storage location: pixel column, pixel row, channel index. -/
abbrev Loc : Type := Nat × Nat × Nat

/-- The `(x, y)` coordinate list built by the core generator
(watermarker.py lines 77-80): `y` outer, `x` inner. -/
def buildCoords (w h : Nat) : List (Nat × Nat) :=
  (List.range h).flatMap fun y => (List.range w).map fun x => (x, y)

/-- The full `(x, y, channel)` location list (watermarker.py lines
88-92): `y` outer, `x` middle, channel inner. -/
def buildLocations (w h : Nat) : List Loc :=
  (List.range h).flatMap fun y =>
    (List.range w).flatMap fun x =>
      (List.range 3).map fun c => (x, y, c)

namespace core

/-- The function `_get_pixel_sequence` of `core/watermarker.py` (lines 65-94): fold
the key into a seed, seed `random.Random`, shuffle the `(x, y)`
coordinate list, then build and shuffle the `(x, y, channel)` list. -/
def get_pixel_sequence (w h : Nat) (key : String) : List Loc :=
  let seed := seedFold (utf8Encode key)
  let rng := MT19937.ofSeed seed
  let rng1 := (MT19937.shuffle rng (buildCoords w h)).1
  (MT19937.shuffle rng1 (buildLocations w h)).2

end core

namespace api

/-- The location list built by the api generator
(api/watermarker.py lines 46-50): it appends `(y_coord, x_coord,
channel_idx)`, i.e. row first. -/
def buildLocationsYX (w h : Nat) : List Loc :=
  (List.range h).flatMap fun y =>
    (List.range w).flatMap fun x =>
      (List.range 3).map fun c => (y, x, c)

/-- The function `_get_pixel_sequence` of `api/watermarker.py` (lines 39-52): same
seed fold, but a single shuffle of the `(y, x, channel)` list and no
preliminary coordinate shuffle. -/
def get_pixel_sequence (w h : Nat) (key : String) : List Loc :=
  let seed := seedFold (utf8Encode key)
  let rng := MT19937.ofSeed seed
  (MT19937.shuffle rng (buildLocationsYX w h)).2

end api

/-- The spec's four-step generator algorithm, for comparison with the
source: seed fold, seed the pinned PRNG, build the ordered `(x, y,
channel)` list, then perform a single in-place shuffle with no other
draws from the generator before it (spec section 4.1). -/
def specGenerate (w h : Nat) (key : String) : List Loc :=
  let seed := seedFold (utf8Encode key)
  let rng := MT19937.ofSeed seed
  (MT19937.shuffle rng (buildLocations w h)).2

/-! ## Image codec -/

/-- An RGB image: pixel access by `(x, y)`, three channel values. -/
abbrev Img : Type := Nat → Nat → Nat × Nat × Nat

/-- Select the channel value: `r, g, b` for indices `0, 1, other`. -/
def getChannel (p : Nat × Nat × Nat) (c : Nat) : Nat :=
  if c = 0 then p.1 else if c = 1 then p.2.1 else p.2.2

/-- The write `(channel_value & ~1) | bit`: clear the least-significant bit and
install the payload bit. -/
def lsbSet (v : Nat) (bit : Bool) : Nat :=
  v / 2 * 2 + (if bit then 1 else 0)

/-- The if-chain of `add_watermark_image` (lines 131-136): write the
bit into the LSB of the selected channel of one pixel value. -/
def writeBit (p : Nat × Nat × Nat) (c : Nat) (bit : Bool) : Nat × Nat × Nat :=
  if c = 0 then (lsbSet p.1 bit, p.2.1, p.2.2)
  else if c = 1 then (p.1, lsbSet p.2.1 bit, p.2.2)
  else (p.1, p.2.1, lsbSet p.2.2 bit)

/-- The assignment `pixels[x, y] = (r, g, b)`: pointwise image update. -/
def setPixel (img : Img) (x y : Nat) (p : Nat × Nat × Nat) : Img :=
  fun x' y' => if x' = x ∧ y' = y then p else img x' y'

/-- The embedding loop (lines 124-141): walk the sequence, writing one
watermark bit per location until the bits run out. -/
def embedBits (img : Img) : List Loc → List Bool → Img
  | _, [] => img
  | [], _ => img
  | (x, y, c) :: seq, b :: bits =>
      embedBits (setPixel img x y (writeBit (img x y) c b)) seq bits

/-- The function `add_watermark_image` (lines 99-158) restricted to its codec core:
file I/O, RGB normalization and saving belong to the surrounding
service layer.  Returns the watermarked image, or `none` on capacity
failure (the source's `return False`). -/
def add_watermark_image (img : Img) (w h : Nat) (payload key : String) :
    Option Img :=
  let binary_watermark := str_to_binary payload ++ DELIMITER
  if binary_watermark.length > w * h * 3 then none
  else
    let seq := core.get_pixel_sequence w h key
    if binary_watermark.length > seq.length then none
    else if min binary_watermark.length seq.length < binary_watermark.length
    then none
    else some (embedBits img seq binary_watermark)

/-- Reading `str(channel & 1)` back as a bit. -/
def extractedBit (img : Img) (loc : Loc) : Bool :=
  getChannel (img loc.1 loc.2.1) loc.2.2 % 2 = 1

/-- The extraction loop of `detect_watermark_image` (lines 178-198):
append one LSB per location while the budget lasts; on the first time
the accumulated bits end with the delimiter, return the bits before
it; on exhaustion of budget or sequence, `none`. -/
def extractBits (img : Img) : List Loc → List Bool → Nat → Option (List Bool)
  | [], _, _ => none
  | _ :: _, _, 0 => none
  | loc :: seq, acc, budget + 1 =>
      let acc' := acc ++ [extractedBit img loc]
      if DELIMITER.isSuffixOf acc' then some (acc'.take (acc'.length - 16))
      else extractBits img seq acc' budget

/-- The function `detect_watermark_image` (lines 161-204) restricted to its codec
core: `max_bits_to_extract = expected_max_len_chars * 8 * 2 +
len(DELIMITER)`, then the bounded extraction walk; a found payload is
decoded by `_binary_to_str`. -/
def detect_watermark_image (img : Img) (w h : Nat) (key : String)
    (expected_max_len_chars : Nat) : Option String :=
  let seq := core.get_pixel_sequence w h key
  let max_bits_to_extract := expected_max_len_chars * 8 * 2 + DELIMITER.length
  (extractBits img seq [] max_bits_to_extract).map binary_to_str_string

/-- The spec's description of `_binary_to_str` as a pipeline, stated
with an independent grouping recursion: truncate to the largest
multiple of 8 bits, assemble the bytes, decode lossily.  Used to check
the code-shaped `binary_to_str` against the spec's wording. -/
def specChunks (bits : List Bool) : List Nat :=
  if _h : 8 ≤ bits.length then
    byteOfBits (bits.take 8) :: specChunks (bits.drop 8)
  else []
termination_by bits.length
decreasing_by simp; omega

/-- The spec's four-step generator algorithm amended as the code forces:
between seeding the generator and shuffling the location list, the code
also shuffles (and discards) the `(x, y)` coordinate list, advancing
the generator state consumed by the location shuffle. -/
def specGenerateWithCoordShuffle (w h : Nat) (key : String) : List Loc :=
  let seed := seedFold (utf8Encode key)
  let rng := MT19937.ofSeed seed
  let rng1 := (MT19937.shuffle rng (buildCoords w h)).1
  (MT19937.shuffle rng1 (buildLocations w h)).2

end Cipherseal

/-! ## Lemmas: the shuffle produces a permutation -/

namespace MT19937

theorem strictNat_eq {α : Type} (n : Nat) (f : Nat → α) : strictNat n f = f n := by
  cases n <;> rfl

theorem randbelowAux_lt (k n : Nat) (hn : 0 < n) (s : State) (fuel : Nat) :
    (randbelowAux k n s fuel).1 < n := by
  induction fuel generalizing s with
  | zero => simpa [randbelowAux] using hn
  | succ f ih =>
    rw [randbelowAux]
    split
    · assumption
    · exact ih _

theorem randbelow_lt (s : State) (n : Nat) (hn : 0 < n) : (randbelow s n).1 < n :=
  randbelowAux_lt _ n hn s _

theorem length_swap {α : Type} [Inhabited α] (l : List α) (i j : Nat) :
    (swap l i j).length = l.length := by
  simp [swap]

theorem swap_perm {α : Type} [DecidableEq α] [Inhabited α] (l : List α) (i j : Nat)
    (hi : i < l.length) (hj : j < l.length) : (swap l i j).Perm l := by
  rw [List.perm_iff_count]
  intro a
  unfold swap
  have hj' : j < (l.set i (l.getD j default)).length := by simpa
  rw [List.count_set _ _ _ _ hj', List.count_set _ _ _ _ hi]
  have h1 : (l.set i (l.getD j default))[j] =
      if i = j then l.getD j default else l[j] := List.getElem_set _
  have e1 : l.getD j default = l[j] := List.getD_eq_getElem _ _ hj
  have e2 : l.getD i default = l[i] := List.getD_eq_getElem _ _ hi
  have hcj : l[j] = a → 1 ≤ List.count a l := fun h =>
    List.count_pos_iff.mpr (h ▸ List.getElem_mem hj)
  have hci : l[i] = a → 1 ≤ List.count a l := fun h =>
    List.count_pos_iff.mpr (h ▸ List.getElem_mem hi)
  simp only [h1, e1, e2, beq_iff_eq, ite_self]
  split_ifs <;> simp_all

theorem shuffleAux_perm {α : Type} [DecidableEq α] [Inhabited α] (i : Nat) :
    ∀ (s : State) (l : List α), i < l.length → ((shuffleAux s l i).2).Perm l := by
  induction i with
  | zero => intro s l _; simp [shuffleAux]
  | succ i ih =>
    intro s l hl
    rw [shuffleAux]
    have hj : (randbelow s (i + 2)).1 < i + 2 := randbelow_lt _ _ (by omega)
    have hswap : (swap l (i + 1) ((randbelow s (i + 2)).1)).Perm l :=
      swap_perm _ _ _ hl (by omega)
    have hlen : i < (swap l (i + 1) ((randbelow s (i + 2)).1)).length := by
      rw [length_swap]; omega
    exact (ih _ _ hlen).trans hswap

theorem shuffle_perm {α : Type} [DecidableEq α] [Inhabited α] (s : State) (l : List α) :
    ((shuffle s l).2).Perm l := by
  cases l with
  | nil => simp [shuffle, shuffleAux]
  | cons a t =>
    exact shuffleAux_perm _ _ _ (by simp)

end MT19937

/-! ## Lemmas: the built location lists cover every slot exactly once -/

namespace Cipherseal

theorem length_buildLocations_inner (w y : Nat) :
    ((List.range w).flatMap fun x => (List.range 3).map fun c => ((x : Nat), y, c)).length
      = w * 3 := by
  induction w with
  | zero => simp
  | succ w ih => rw [List.range_succ]; simp [ih]; ring

theorem length_buildLocations (w h : Nat) :
    (buildLocations w h).length = w * h * 3 := by
  unfold buildLocations
  induction h with
  | zero => simp
  | succ h ih =>
    rw [List.range_succ]
    simp only [List.flatMap_append, List.flatMap_cons, List.flatMap_nil,
      List.append_nil, List.length_append]
    rw [ih, length_buildLocations_inner]
    ring

theorem mem_buildLocations {w h x y c : Nat} :
    (x, y, c) ∈ buildLocations w h ↔ x < w ∧ y < h ∧ c < 3 := by
  simp only [buildLocations, List.mem_flatMap, List.mem_map, List.mem_range,
    Prod.mk.injEq]
  constructor
  · rintro ⟨y', hy', x', hx', c', hc', hx, hy, hc⟩
    subst hx; subst hy; subst hc; exact ⟨hx', hy', hc'⟩
  · rintro ⟨hx, hy, hc⟩
    exact ⟨y, hy, x, hx, c, hc, rfl, rfl, rfl⟩

theorem nodup_buildLocations (w h : Nat) : (buildLocations w h).Nodup := by
  unfold buildLocations
  rw [List.nodup_flatMap]
  constructor
  · intro y _
    rw [List.nodup_flatMap]
    constructor
    · intro x _
      refine (List.nodup_range 3).map ?_
      intro c₁ c₂ hcc
      simpa using hcc
    · refine (List.pairwise_lt_range w).imp ?_
      intro a b hab t ht ht'
      simp only [Function.onFun, List.mem_map, List.mem_range] at ht ht'
      obtain ⟨c₁, _, rfl⟩ := ht
      obtain ⟨c₂, _, heq⟩ := ht'
      exact hab.ne' (congrArg Prod.fst heq)
  · refine (List.pairwise_lt_range h).imp ?_
    intro y₁ y₂ hy t ht ht'
    simp only [Function.onFun, List.mem_flatMap, List.mem_map, List.mem_range] at ht ht'
    obtain ⟨x₁, _, c₁, _, rfl⟩ := ht
    obtain ⟨x₂, _, c₂, _, heq⟩ := ht'
    have := congrArg (fun t : Loc => t.2.1) heq
    simp at this
    omega

theorem core_gps_perm (w h : Nat) (key : String) :
    (core.get_pixel_sequence w h key).Perm (buildLocations w h) :=
  MT19937.shuffle_perm _ _

theorem core_gps_length (w h : Nat) (key : String) :
    (core.get_pixel_sequence w h key).length = w * h * 3 :=
  ((core_gps_perm w h key).length_eq).trans (length_buildLocations w h)

theorem core_gps_mem {w h x y c : Nat} {key : String} :
    (x, y, c) ∈ core.get_pixel_sequence w h key ↔ x < w ∧ y < h ∧ c < 3 :=
  ((core_gps_perm w h key).mem_iff).trans mem_buildLocations

theorem core_gps_nodup (w h : Nat) (key : String) :
    (core.get_pixel_sequence w h key).Nodup :=
  ((core_gps_perm w h key).nodup_iff).mpr (nodup_buildLocations w h)

theorem perm_count {α : Type} [BEq α] {l₁ l₂ : List α} (hp : l₁.Perm l₂) (t : α) :
    l₁.count t = l₂.count t := by
  rw [List.count_eq_countP, List.count_eq_countP]
  exact hp.countP_eq _

theorem nodup_count_le_one {α : Type} [BEq α] [LawfulBEq α] {l : List α}
    (h : l.Nodup) (t : α) : l.count t ≤ 1 := by
  induction l with
  | nil => simp
  | cons a l ih =>
    rw [List.count_cons]
    rcases List.nodup_cons.mp h with ⟨ha, hl⟩
    by_cases hat : a = t
    · subst hat
      have hz : l.count a = 0 := by rwa [List.count_eq_zero]
      simp [hz]
    · simp only [beq_iff_eq, hat, if_false]
      simpa using ih hl

theorem core_gps_count {w h x y c : Nat} {key : String} :
    (core.get_pixel_sequence w h key).count (x, y, c) = 1 ↔
      x < w ∧ y < h ∧ c < 3 := by
  rw [perm_count (core_gps_perm w h key)]
  constructor
  · intro h1
    exact mem_buildLocations.mp (List.count_pos_iff.mp (by omega))
  · intro hb
    have hmem := mem_buildLocations.mpr hb
    have h1 := List.count_pos_iff.mpr hmem
    have h2 := nodup_count_le_one (nodup_buildLocations w h) ((x, y, c) : Loc)
    omega

theorem channels_lt_three {w h : Nat} {key : String} :
    ∀ t ∈ core.get_pixel_sequence w h key, t.2.2 < 3 := by
  intro t ht
  obtain ⟨x, y, c⟩ := t
  exact (core_gps_mem.mp ht).2.2

/-! ## Lemmas: the UTF-8 codec round-trips -/

set_option maxRecDepth 8000 in
theorem byteOfBits_bitsOfByte : ∀ b, b < 256 → byteOfBits (bitsOfByte b) = b := by
  decide

theorem chunkBytes_flatMap (bs : List Nat) (hb : ∀ b ∈ bs, b < 256) :
    chunkBytes (bs.flatMap bitsOfByte) = bs := by
  induction bs with
  | nil => rfl
  | cons b bs ih =>
    rw [List.flatMap_cons]
    show byteOfBits (bitsOfByte b) :: chunkBytes (bs.flatMap bitsOfByte) = b :: bs
    rw [byteOfBits_bitsOfByte b (hb b (by simp)),
      ih (fun x hx => hb x (by simp [hx]))]

theorem length_flatMap_bitsOfByte (bs : List Nat) :
    (bs.flatMap bitsOfByte).length = 8 * bs.length := by
  induction bs with
  | nil => rfl
  | cons b bs ih => simp [bitsOfByte, ih]; ring

theorem utf8EncodeN_lt (n : Nat) (hn : n < 0x110000) :
    ∀ b ∈ utf8EncodeN n, b < 254 := by
  intro b hb
  unfold utf8EncodeN at hb
  split_ifs at hb <;> simp at hb <;> rcases hb with h | h <;> omega

set_option maxRecDepth 8000 in
theorem utf8DecodeLossy_encodeN (n : Nat) (hv : Nat.isValidChar n)
    (rest : List Nat) :
    utf8DecodeLossy (utf8EncodeN n ++ rest) = n :: utf8DecodeLossy rest := by
  unfold Nat.isValidChar at hv
  unfold utf8EncodeN
  by_cases h1 : n < 0x80
  · rw [if_pos h1, List.singleton_append, utf8DecodeLossy.eq_def]
    simp [h1]
  · by_cases h2 : n < 0x800
    · rw [if_neg h1, if_pos h2]
      have hb1a : ¬(0xC0 + n / 0x40 < 0x80) := by omega
      have hb1b : ¬(0xC0 + n / 0x40 < 0xC2) := by omega
      have hb1c : 0xC0 + n / 0x40 < 0xE0 := by omega
      have hcont : isCont (0x80 + n % 0x40) = true := by
        simp only [isCont, Bool.and_eq_true, decide_eq_true_eq]
        omega
      show utf8DecodeLossy (_ :: _ :: rest) = _
      rw [utf8DecodeLossy.eq_def]
      simp only [hb1a, hb1b, hb1c, hcont, if_false, if_true, if_neg, if_pos]
      simp only [List.cons.injEq]
      exact ⟨by omega, trivial⟩
    · by_cases h3 : n < 0x10000
      · rw [if_neg h1, if_neg h2, if_pos h3]
        have hb1a : ¬(0xE0 + n / 0x1000 < 0x80) := by omega
        have hb1b : ¬(0xE0 + n / 0x1000 < 0xC2) := by omega
        have hb1c : ¬(0xE0 + n / 0x1000 < 0xE0) := by omega
        have hb1d : 0xE0 + n / 0x1000 < 0xF0 := by omega
        have hcont3 : cont3ok (0xE0 + n / 0x1000) (0x80 + (n / 0x40) % 0x40) = true := by
          unfold cont3ok isCont
          split_ifs with e1 e2 <;>
            simp only [Bool.and_eq_true, decide_eq_true_eq] <;> omega
        have hcont : isCont (0x80 + n % 0x40) = true := by
          simp only [isCont, Bool.and_eq_true, decide_eq_true_eq]
          omega
        show utf8DecodeLossy (_ :: _ :: _ :: rest) = _
        rw [utf8DecodeLossy.eq_def]
        simp only [hb1a, hb1b, hb1c, hb1d, hcont3, hcont, if_false, if_true,
          if_neg, if_pos]
        simp only [List.cons.injEq]
        exact ⟨by omega, trivial⟩
      · rw [if_neg h1, if_neg h2, if_neg h3]
        have hn : n < 0x110000 := by omega
        have hb1a : ¬(0xF0 + n / 0x40000 < 0x80) := by omega
        have hb1b : ¬(0xF0 + n / 0x40000 < 0xC2) := by omega
        have hb1c : ¬(0xF0 + n / 0x40000 < 0xE0) := by omega
        have hb1d : ¬(0xF0 + n / 0x40000 < 0xF0) := by omega
        have hb1e : 0xF0 + n / 0x40000 < 0xF5 := by omega
        have hcont4 : cont4ok (0xF0 + n / 0x40000) (0x80 + (n / 0x1000) % 0x40) = true := by
          unfold cont4ok isCont
          split_ifs with e1 e2 <;>
            simp only [Bool.and_eq_true, decide_eq_true_eq] <;> omega
        have hcont3 : isCont (0x80 + (n / 0x40) % 0x40) = true := by
          simp only [isCont, Bool.and_eq_true, decide_eq_true_eq]
          omega
        have hcont : isCont (0x80 + n % 0x40) = true := by
          simp only [isCont, Bool.and_eq_true, decide_eq_true_eq]
          omega
        show utf8DecodeLossy (_ :: _ :: _ :: _ :: rest) = _
        rw [utf8DecodeLossy.eq_def]
        simp only [hb1a, hb1b, hb1c, hb1d, hb1e, hcont4, hcont3, hcont,
          if_false, if_true, if_neg, if_pos]
        simp only [List.cons.injEq]
        exact ⟨by omega, trivial⟩

theorem utf8DecodeLossy_flatMap (cs : List Char) :
    utf8DecodeLossy (cs.flatMap utf8EncodeChar) = cs.map Char.toNat := by
  induction cs with
  | nil => rfl
  | cons c cs ih =>
    rw [List.flatMap_cons, List.map_cons, ← ih]
    apply utf8DecodeLossy_encodeN
    have h := c.valid
    unfold UInt32.isValidChar at h
    exact h

theorem utf8Encode_lt (s : String) : ∀ b ∈ utf8Encode s, b < 254 := by
  intro b hb
  rw [utf8Encode, List.mem_flatMap] at hb
  obtain ⟨c, _, hbc⟩ := hb
  have hv : Nat.isValidChar c.toNat := by
    have h := c.valid
    unfold UInt32.isValidChar at h
    exact h
  have hlt : c.toNat < 0x110000 := by
    unfold Nat.isValidChar at hv
    omega
  exact utf8EncodeN_lt _ hlt b hbc

theorem length_str_to_binary (s : String) :
    (str_to_binary s).length = 8 * (utf8Encode s).length :=
  length_flatMap_bitsOfByte _

theorem binary_to_str_roundtrip (s : String) :
    binary_to_str_string (str_to_binary s) = s := by
  have hlen : (str_to_binary s).length % 8 = 0 := by
    rw [length_str_to_binary]
    omega
  simp only [binary_to_str_string, binary_to_str]
  rw [if_neg (by simp [hlen])]
  rw [str_to_binary,
    chunkBytes_flatMap _ (fun b hb => Nat.lt_trans (utf8Encode_lt s b hb) (by omega))]
  rw [utf8Encode, utf8DecodeLossy_flatMap]
  simp only [List.map_map, Function.comp_def, Char.ofNat_toNat, List.map_id_fun',
    id_eq]

/-! ## Lemmas: the delimiter cannot occur early in the embedded stream -/

theorem delim_structure : DELIMITER = List.replicate 15 true ++ [false] := by
  decide

set_option maxRecDepth 8000 in
theorem byte_split : ∀ b, b < 254 →
    tOnes b ≤ 7 ∧
    bitsOfByte b =
      (bitsOfByte b).take (7 - tOnes b) ++ [false] ++ List.replicate (tOnes b) true := by
  decide

theorem suffix_append_right {α : Type} {A B s : List α}
    (hsuf : s <:+ A ++ B) (hlen : s.length ≤ B.length) : s <:+ B := by
  obtain ⟨p, hp⟩ := hsuf
  have hlp : A.length ≤ p.length := by
    have := congrArg List.length hp
    simp at this
    omega
  refine ⟨p.drop A.length, ?_⟩
  have hB : B = List.drop A.length (A ++ B) := by
    simp
  rw [hB, ← hp, List.drop_append_eq_append_drop, Nat.sub_eq_zero_of_le hlp,
    List.drop_zero]

theorem getLast?_of_suffix {α : Type} {s l : List α} (hsuf : s <:+ l)
    (hne : s ≠ []) : l.getLast? = s.getLast? := by
  obtain ⟨p, hp⟩ := hsuf
  rw [← hp, List.getLast?_append]
  cases hs : s.getLast? with
  | none => exact absurd (List.getLast?_eq_none_iff.mp hs) hne
  | some a => simp

theorem no_delim_take (bs : List Nat) (hb : ∀ b ∈ bs, b < 254) :
    ∀ k, k ≤ 7 → ∀ m,
      ¬ DELIMITER <:+ (List.replicate k true ++ bs.flatMap bitsOfByte).take m := by
  induction bs with
  | nil =>
    intro k hk m hsuf
    have hlen := hsuf.length_le
    simp [DELIMITER] at hlen
    omega
  | cons b bs ih =>
    intro k hk m hsuf
    rw [List.flatMap_cons] at hsuf
    by_cases hm : m ≤ k + 8
    · have hlen := hsuf.length_le
      rw [List.length_take] at hlen
      simp [DELIMITER] at hlen
      omega
    · obtain ⟨ht7, hsp⟩ := byte_split b (hb b (by simp))
      rw [show List.replicate k true ++ (bitsOfByte b ++ bs.flatMap bitsOfByte) =
          (List.replicate k true ++ (bitsOfByte b).take (7 - tOnes b) ++ [false]) ++
          (List.replicate (tOnes b) true ++ bs.flatMap bitsOfByte) by
        conv_lhs => rw [hsp]
        simp] at hsuf
      set A := List.replicate k true ++ (bitsOfByte b).take (7 - tOnes b) ++ [false]
        with hA
      have hAlen : A.length = k + (8 - tOnes b) := by
        rw [hA]
        simp [List.length_take, bitsOfByte]
        omega
      rw [List.take_append_eq_append_take,
        List.take_of_length_le (by omega)] at hsuf
      set B := (List.replicate (tOnes b) true ++ bs.flatMap bitsOfByte).take
        (m - A.length) with hB
      have hBtake : B = (List.replicate (tOnes b) true ++
          bs.flatMap bitsOfByte).take (m - A.length) := hB
      clear_value B
      have hdlen : DELIMITER.length = 16 := by decide
      by_cases hbl : 16 ≤ B.length
      · have hsB : DELIMITER <:+ B :=
          suffix_append_right hsuf (by omega)
        rw [hBtake] at hsB
        exact ih (fun x hx => hb x (by simp [hx])) (tOnes b) ht7 (m - A.length) hsB
      · obtain ⟨p, hp⟩ := hsuf
        have hlens := congrArg List.length hp
        simp only [List.length_append, hdlen] at hlens
        have hBlt : B.length < 16 := by omega
        have hBpos : 1 ≤ B.length := by omega
        have hpA : p.length ≤ A.length := by omega
        have hA2 : A = List.replicate k true ++
            ((bitsOfByte b).take (7 - tOnes b) ++ [false]) := by
          rw [hA, List.append_assoc]
        have hAfalse : A = (List.replicate k true ++
            (bitsOfByte b).take (7 - tOnes b)) ++ [false] := hA
        clear_value A
        have hA3 : DELIMITER = A.drop p.length ++ B := by
          have h1 : DELIMITER = List.drop p.length (p ++ DELIMITER) := by
            rw [List.drop_append_eq_append_drop, List.drop_length, Nat.sub_self,
              List.drop_zero, List.nil_append]
          rw [h1, hp, List.drop_append_eq_append_drop,
            Nat.sub_eq_zero_of_le hpA, List.drop_zero]
        have hA3len : (A.drop p.length).length = 16 - B.length := by
          rw [List.length_drop]
          omega
        have htake : A.drop p.length = List.replicate (16 - B.length) true := by
          have h2 : List.take (16 - B.length) DELIMITER = A.drop p.length := by
            rw [hA3]
            exact List.take_left' hA3len
          rw [delim_structure, List.take_append_eq_append_take] at h2
          have e1 : List.take (16 - B.length) (List.replicate 15 true) =
              List.replicate (16 - B.length) true := by
            rw [List.take_replicate]
            congr 1
            omega
          have e2 : (16 - B.length) - (List.replicate 15 (true : Bool)).length = 0 := by
            rw [List.length_replicate]
            omega
          rw [e1, e2, List.take_zero, List.append_nil] at h2
          exact h2.symm
        have hAlast : A.getLast? = some false := by
          rw [hAfalse, List.getLast?_concat]
        have hA3ne : A.drop p.length ≠ [] := by
          intro h0
          rw [h0] at hA3len
          simp at hA3len
          omega
        have h3 := getLast?_of_suffix (List.drop_suffix p.length A) hA3ne
        rw [hAlast, htake, List.getLast?_replicate] at h3
        have h4 : ¬(16 - B.length = 0) := by omega
        simp [h4] at h3

theorem no_delim_in_payload (s : String) (m : Nat) :
    ¬ DELIMITER <:+ ((str_to_binary s).take m) := by
  have h := no_delim_take (utf8Encode s) (utf8Encode_lt s) 0 (by omega) m
  simpa [str_to_binary] using h

theorem no_early_delim (s : String) (m : Nat)
    (hm : m < (str_to_binary s).length + 16) :
    ¬ DELIMITER <:+ ((str_to_binary s ++ DELIMITER).take m) := by
  by_cases hmp : m ≤ (str_to_binary s).length
  · rw [List.take_append_eq_append_take, Nat.sub_eq_zero_of_le hmp,
      List.take_zero, List.append_nil]
    exact no_delim_in_payload s m
  · intro hsuf
    rw [List.take_append_eq_append_take,
      List.take_of_length_le (by omega)] at hsuf
    have hj1 : 1 ≤ m - (str_to_binary s).length := by omega
    have hj15 : m - (str_to_binary s).length ≤ 15 := by omega
    have htD : DELIMITER.take (m - (str_to_binary s).length) =
        List.replicate (m - (str_to_binary s).length) true := by
      rw [delim_structure, List.take_append_eq_append_take]
      have e1 : List.take (m - (str_to_binary s).length) (List.replicate 15 true) =
          List.replicate (m - (str_to_binary s).length) true := by
        rw [List.take_replicate]
        congr 1
        omega
      have e2 : (m - (str_to_binary s).length) -
          (List.replicate 15 (true : Bool)).length = 0 := by
        rw [List.length_replicate]
        omega
      rw [e1, e2, List.take_zero, List.append_nil]
    rw [htD] at hsuf
    have hlast : (str_to_binary s ++
        List.replicate (m - (str_to_binary s).length) true).getLast? = some true := by
      rw [List.getLast?_append, List.getLast?_replicate]
      have : ¬(m - (str_to_binary s).length = 0) := by omega
      simp [this]
    have hne : DELIMITER ≠ [] := by decide
    have h5 := getLast?_of_suffix hsuf hne
    rw [hlast] at h5
    have hd : DELIMITER.getLast? = some false := by decide
    rw [hd] at h5
    simp at h5

/-! ## Lemmas: the embedding loop writes exactly the watermark bits -/

theorem lsbSet_mod2 (v : Nat) (b : Bool) :
    lsbSet v b % 2 = if b then 1 else 0 := by
  unfold lsbSet
  cases b <;> simp <;> omega

theorem lsbSet_div2 (v : Nat) (b : Bool) : lsbSet v b / 2 = v / 2 := by
  unfold lsbSet
  cases b <;> simp <;> omega

theorem getChannel_writeBit_same (p : Nat × Nat × Nat) (c : Nat) (b : Bool)
    (hc : c < 3) : getChannel (writeBit p c b) c = lsbSet (getChannel p c) b := by
  unfold getChannel writeBit
  interval_cases c <;> simp

theorem getChannel_writeBit_other (p : Nat × Nat × Nat) (c c' : Nat) (b : Bool)
    (hc : c < 3) (hc' : c' < 3) (hne : c' ≠ c) :
    getChannel (writeBit p c b) c' = getChannel p c' := by
  unfold getChannel writeBit
  interval_cases c <;> interval_cases c' <;> simp_all

theorem embedBits_frame (seq : List Loc) (bits : List Bool) (img : Img)
    (hch : ∀ l ∈ seq, l.2.2 < 3) (x y c : Nat) (hc : c < 3)
    (hnot : (x, y, c) ∉ seq.take bits.length) :
    getChannel ((embedBits img seq bits) x y) c = getChannel (img x y) c := by
  induction seq generalizing img bits with
  | nil => cases bits <;> rfl
  | cons l seq ih =>
    cases bits with
    | nil => rfl
    | cons b bt =>
      obtain ⟨lx, ly, lc⟩ := l
      show getChannel ((embedBits
        (setPixel img lx ly (writeBit (img lx ly) lc b)) seq bt) x y) c = _
      rw [List.length_cons, List.take_succ_cons, List.mem_cons] at hnot
      push_neg at hnot
      rw [ih bt _ (fun l hl => hch l (by simp [hl])) hnot.2]
      unfold setPixel
      by_cases hxy : x = lx ∧ y = ly
      · obtain ⟨rfl, rfl⟩ := hxy
        simp only [if_pos (And.intro rfl rfl)]
        have hlc : lc < 3 := hch (x, y, lc) (by simp)
        have hcc : c ≠ lc := by
          intro h
          exact hnot.1 (by rw [h])
        exact getChannel_writeBit_other _ _ _ _ hlc hc hcc
      · simp only [if_neg hxy]

theorem extractedBit_lsbSet (img : Img) (x y c : Nat) (v : Nat) (b : Bool)
    (h : getChannel (img x y) c = lsbSet v b) :
    extractedBit img (x, y, c) = b := by
  unfold extractedBit
  show decide (getChannel (img x y) c % 2 = 1) = b
  rw [h, lsbSet_mod2]
  cases b <;> simp

theorem embedBits_read (seq : List Loc) (bits : List Bool) (img : Img)
    (hnd : seq.Nodup) (hch : ∀ l ∈ seq, l.2.2 < 3)
    (hlen : bits.length ≤ seq.length) :
    (seq.map (extractedBit (embedBits img seq bits))).take bits.length = bits := by
  induction seq generalizing img bits with
  | nil =>
    cases bits with
    | nil => rfl
    | cons b bt => simp at hlen
  | cons l seq ih =>
    cases bits with
    | nil => rfl
    | cons b bt =>
      obtain ⟨lx, ly, lc⟩ := l
      rw [List.nodup_cons] at hnd
      have hlc : lc < 3 := hch (lx, ly, lc) (by simp)
      show ((extractedBit (embedBits
          (setPixel img lx ly (writeBit (img lx ly) lc b)) seq bt) (lx, ly, lc)) ::
          (seq.map _).take bt.length) = b :: bt
      congr 1
      · apply extractedBit_lsbSet
        rw [embedBits_frame seq bt _ (fun l hl => hch l (by simp [hl])) lx ly lc hlc
          (fun hmem => hnd.1 (List.take_subset _ _ hmem))]
        unfold setPixel
        simp only [if_pos (And.intro rfl rfl)]
        exact getChannel_writeBit_same _ _ _ hlc
      · exact ih bt _ hnd.2 (fun l hl => hch l (by simp [hl])) (by simpa using hlen)

theorem embedBits_div2 (seq : List Loc) (bits : List Bool) (img : Img)
    (hch : ∀ l ∈ seq, l.2.2 < 3) (x y c : Nat) (hc : c < 3) :
    getChannel ((embedBits img seq bits) x y) c / 2 =
      getChannel (img x y) c / 2 := by
  induction seq generalizing img bits with
  | nil => cases bits <;> rfl
  | cons l seq ih =>
    cases bits with
    | nil => rfl
    | cons b bt =>
      obtain ⟨lx, ly, lc⟩ := l
      have hlc : lc < 3 := hch (lx, ly, lc) (by simp)
      show getChannel ((embedBits
        (setPixel img lx ly (writeBit (img lx ly) lc b)) seq bt) x y) c / 2 = _
      rw [ih bt _ (fun l hl => hch l (by simp [hl]))]
      unfold setPixel
      by_cases hxy : x = lx ∧ y = ly
      · obtain ⟨rfl, rfl⟩ := hxy
        rw [if_pos (show x = x ∧ y = y from ⟨rfl, rfl⟩)]
        by_cases hcc : c = lc
        · subst hcc
          rw [getChannel_writeBit_same _ _ _ hc, lsbSet_div2]
        · rw [getChannel_writeBit_other _ _ _ _ hlc hc hcc]
      · simp only [if_neg hxy]

/-! ## Lemmas: characterization of the bounded extraction loop -/

theorem acc_take_cons (acc : List Bool) (b : Bool) (rest : List Bool) (m : Nat) :
    (acc ++ [b]) ++ rest.take m = acc ++ (b :: rest).take (m + 1) := by
  rw [List.take_succ_cons, List.append_assoc, List.singleton_append]

theorem extractBits_eq_some (img : Img) (seq : List Loc) (acc : List Bool)
    (budget : Nat) (out : List Bool) :
    extractBits img seq acc budget = some out ↔
      ∃ m, 1 ≤ m ∧ m ≤ budget ∧ m ≤ seq.length ∧
        DELIMITER <:+ (acc ++ (seq.map (extractedBit img)).take m) ∧
        (∀ m', 1 ≤ m' → m' < m →
          ¬ DELIMITER <:+ (acc ++ (seq.map (extractedBit img)).take m')) ∧
        out = (acc ++ (seq.map (extractedBit img)).take m).take
          (acc.length + m - 16) := by
  induction seq generalizing acc budget with
  | nil =>
    rw [extractBits]
    constructor
    · intro h
      exact absurd h (by simp)
    · rintro ⟨m, hm1, _, hml, _⟩
      simp at hml
      omega
  | cons loc seq ih =>
    cases budget with
    | zero =>
      rw [extractBits]
      constructor
      · intro h
        exact absurd h (by simp)
      · rintro ⟨m, hm1, hmb, _⟩
        omega
    | succ bud =>
      show (if DELIMITER.isSuffixOf (acc ++ [extractedBit img loc]) then
          some ((acc ++ [extractedBit img loc]).take
            ((acc ++ [extractedBit img loc]).length - 16))
        else extractBits img seq (acc ++ [extractedBit img loc]) bud) = some out ↔ _
      by_cases hdel : DELIMITER <:+ (acc ++ [extractedBit img loc])
      · rw [if_pos (List.isSuffixOf_iff_suffix.mpr hdel)]
        constructor
        · intro h
          injection h with h
          refine ⟨1, le_refl 1, by omega, by simp, ?_, ?_, ?_⟩
          · simpa using hdel
          · intro m' hm1 hm2
            omega
          · rw [← h]
            simp
        · rintro ⟨m, hm1, hmb, hml, hdelm, hmin, hout⟩
          have hm : m = 1 := by
            by_contra hne
            exact hmin 1 (by omega) (by omega) (by simpa using hdel)
          subst hm
          congr 1
          rw [hout]
          simp
      · rw [if_neg (by
          intro hc
          exact hdel (List.isSuffixOf_iff_suffix.mp hc))]
        rw [ih (acc ++ [extractedBit img loc]) bud]
        constructor
        · rintro ⟨m, hm1, hmb, hml, hdelm, hmin, hout⟩
          refine ⟨m + 1, by omega, by omega, by simp; omega, ?_, ?_, ?_⟩
          · rw [List.map_cons, ← acc_take_cons]
            exact hdelm
          · intro m' h1 h2
            match m', h1 with
            | 1, _ =>
              intro hsuf
              exact hdel (by simpa using hsuf)
            | (m'' + 2), _ =>
              rw [List.map_cons, ← acc_take_cons]
              exact hmin (m'' + 1) (by omega) (by omega)
          · rw [hout, List.map_cons, ← acc_take_cons]
            congr 1
            simp
            omega
        · rintro ⟨m, hm1, hmb, hml, hdelm, hmin, hout⟩
          obtain ⟨k, rfl⟩ : ∃ k, m = k + 1 := ⟨m - 1, by omega⟩
          have hk1 : 1 ≤ k := by
            by_contra hk0
            have hk0' : k = 0 := by omega
            subst hk0'
            exact hdel (by simpa using hdelm)
          refine ⟨k, hk1, by omega, by simp at hml; omega, ?_, ?_, ?_⟩
          · rw [List.map_cons, ← acc_take_cons] at hdelm
            exact hdelm
          · intro m' h1 h2
            have := hmin (m' + 1) (by omega) (by omega)
            rw [List.map_cons, ← acc_take_cons] at this
            exact this
          · rw [hout, List.map_cons, ← acc_take_cons]
            congr 1
            simp
            omega

theorem extractBits_eq_none (img : Img) (seq : List Loc) (acc : List Bool)
    (budget : Nat) :
    extractBits img seq acc budget = none ↔
      ∀ m, 1 ≤ m → m ≤ budget → m ≤ seq.length →
        ¬ DELIMITER <:+ (acc ++ (seq.map (extractedBit img)).take m) := by
  constructor
  · intro hnone m hm1 hmb hml hdel
    classical
    have hex : ∃ k, 1 ≤ k ∧ k ≤ budget ∧ k ≤ seq.length ∧
        DELIMITER <:+ (acc ++ (seq.map (extractedBit img)).take k) :=
      ⟨m, hm1, hmb, hml, hdel⟩
    obtain ⟨hk1, hkb, hkl, hkdel⟩ := Nat.find_spec hex
    have hmin : ∀ m', 1 ≤ m' → m' < Nat.find hex →
        ¬ DELIMITER <:+ (acc ++ (seq.map (extractedBit img)).take m') := by
      intro m' h1 h2 hdel'
      exact Nat.find_min hex h2 ⟨h1, by omega, by omega, hdel'⟩
    have hsome := (extractBits_eq_some img seq acc budget
        ((acc ++ (seq.map (extractedBit img)).take (Nat.find hex)).take
          (acc.length + Nat.find hex - 16))).mpr
      ⟨Nat.find hex, hk1, hkb, hkl, hkdel, hmin, rfl⟩
    rw [hnone] at hsome
    exact absurd hsome (by simp)
  · intro hall
    cases hext : extractBits img seq acc budget with
    | none => rfl
    | some out =>
      rw [extractBits_eq_some] at hext
      obtain ⟨m, hm1, hmb, hml, hdel, _, _⟩ := hext
      exact absurd hdel (hall m hm1 hmb hml)

/-! ## Lemmas: assembling encode and decode -/

theorem delim_length : DELIMITER.length = 16 := by decide

theorem bw_length (payload : String) :
    (str_to_binary payload ++ DELIMITER).length =
      (str_to_binary payload).length + 16 := by
  rw [List.length_append, delim_length]

theorem add_eq_some (img : Img) (w h : Nat) (payload key : String)
    (hcap : (str_to_binary payload).length + 16 ≤ w * h * 3) :
    add_watermark_image img w h payload key =
      some (embedBits img (core.get_pixel_sequence w h key)
        (str_to_binary payload ++ DELIMITER)) := by
  have hbw := bw_length payload
  have hseq := core_gps_length w h key
  simp only [add_watermark_image]
  rw [if_neg (by omega), if_neg (by omega), if_neg (by omega)]

theorem add_eq_none (img : Img) (w h : Nat) (payload key : String)
    (hcap : w * h * 3 < (str_to_binary payload).length + 16) :
    add_watermark_image img w h payload key = none := by
  have hbw := bw_length payload
  simp only [add_watermark_image]
  rw [if_pos (by omega)]

theorem detect_embed (img : Img) (w h : Nat) (payload key1 key2 : String)
    (c : Nat)
    (hs : core.get_pixel_sequence w h key2 = core.get_pixel_sequence w h key1)
    (hcap : (str_to_binary payload).length + 16 ≤ w * h * 3)
    (hbound : (str_to_binary payload).length + 16 ≤ c * 8 * 2 + 16) :
    detect_watermark_image
      (embedBits img (core.get_pixel_sequence w h key1)
        (str_to_binary payload ++ DELIMITER)) w h key2 c = some payload := by
  have hbw := bw_length payload
  have hseqlen := core_gps_length w h key1
  set seq := core.get_pixel_sequence w h key1 with hseqdef
  set bw := str_to_binary payload ++ DELIMITER with hbwdef
  set img' := embedBits img seq bw with himg
  have hstream : (seq.map (extractedBit img')).take bw.length = bw := by
    rw [himg]
    exact embedBits_read seq bw img (core_gps_nodup w h key1)
      channels_lt_three (by omega)
  have he : (str_to_binary payload ++ DELIMITER).length = bw.length := by
    rw [hbwdef]
  have hext : extractBits img' seq [] (c * 8 * 2 + DELIMITER.length) =
      some (str_to_binary payload) := by
    rw [extractBits_eq_some]
    refine ⟨bw.length, by omega, by rw [delim_length]; omega, by omega, ?_, ?_, ?_⟩
    · rw [List.nil_append, hstream, hbwdef]
      exact List.suffix_append _ _
    · intro m' h1 h2 hdel
      rw [List.nil_append] at hdel
      have htk : (seq.map (extractedBit img')).take m' = bw.take m' := by
        rw [← hstream, List.take_take]
        congr 1
        omega
      rw [htk, hbwdef] at hdel
      exact no_early_delim payload m' (by omega) hdel
    · rw [List.nil_append, hstream, List.length_nil, Nat.zero_add, hbwdef]
      rw [show (str_to_binary payload ++ DELIMITER).length - 16 =
        (str_to_binary payload).length by omega]
      exact (List.take_left' rfl).symm
  rw [detect_watermark_image, hs, hext]
  show some (binary_to_str_string (str_to_binary payload)) = some payload
  rw [binary_to_str_roundtrip]

/-! ## Lemmas: the api generator variant -/

theorem length_buildLocationsYX_inner (w y : Nat) :
    ((List.range w).flatMap fun x => (List.range 3).map fun c => ((y : Nat), x, c)).length
      = w * 3 := by
  induction w with
  | zero => simp
  | succ w ih => rw [List.range_succ]; simp [ih]; ring

theorem length_buildLocationsYX (w h : Nat) :
    (api.buildLocationsYX w h).length = w * h * 3 := by
  unfold api.buildLocationsYX
  induction h with
  | zero => simp
  | succ h ih =>
    rw [List.range_succ]
    simp only [List.flatMap_append, List.flatMap_cons, List.flatMap_nil,
      List.append_nil, List.length_append]
    rw [ih, length_buildLocationsYX_inner]
    ring

theorem mem_buildLocationsYX {w h a b c : Nat} :
    (a, b, c) ∈ api.buildLocationsYX w h ↔ a < h ∧ b < w ∧ c < 3 := by
  simp only [api.buildLocationsYX, List.mem_flatMap, List.mem_map,
    List.mem_range, Prod.mk.injEq]
  constructor
  · rintro ⟨y', hy', x', hx', c', hc', hy, hx, hc⟩
    subst hy; subst hx; subst hc; exact ⟨hy', hx', hc'⟩
  · rintro ⟨ha, hb, hc⟩
    exact ⟨a, ha, b, hb, c, hc, rfl, rfl, rfl⟩

theorem api_gps_perm (w h : Nat) (key : String) :
    (api.get_pixel_sequence w h key).Perm (api.buildLocationsYX w h) :=
  MT19937.shuffle_perm _ _

theorem api_gps_length (w h : Nat) (key : String) :
    (api.get_pixel_sequence w h key).length = w * h * 3 :=
  ((api_gps_perm w h key).length_eq).trans (length_buildLocationsYX w h)

theorem api_gps_mem {w h a b c : Nat} {key : String} :
    (a, b, c) ∈ api.get_pixel_sequence w h key ↔ a < h ∧ b < w ∧ c < 3 :=
  ((api_gps_perm w h key).mem_iff).trans mem_buildLocationsYX

/-! ## Lemmas: the seed fold determines the sequence -/

theorem gps_of_seedFold (w h : Nat) {k1 k2 : String}
    (hs : seedFold (utf8Encode k1) = seedFold (utf8Encode k2)) :
    core.get_pixel_sequence w h k1 = core.get_pixel_sequence w h k2 := by
  unfold core.get_pixel_sequence
  rw [hs]

theorem seedFold_cons_zero (bs : List Nat) : seedFold (0 :: bs) = seedFold bs :=
  rfl

theorem seedFold_nul (k : String) :
    seedFold (utf8Encode ("\x00" ++ k)) = seedFold (utf8Encode k) := by
  have hdata : ("\x00" ++ k).data = '\x00' :: k.data := by
    rw [String.data_append]
    rfl
  rw [utf8Encode, hdata, List.flatMap_cons]
  show seedFold ([0] ++ (k.data.flatMap utf8EncodeChar)) = _
  rw [List.singleton_append, seedFold_cons_zero, ← utf8Encode]

/-! ## Lemmas: the two chunking recursions of the bit-to-text decoder agree -/

theorem chunkBytes_eq_specChunks (l : List Bool) : chunkBytes l = specChunks l := by
  induction l using chunkBytes.induct with
  | case1 b0 b1 b2 b3 b4 b5 b6 b7 rest ih =>
    show byteOfBits [b0, b1, b2, b3, b4, b5, b6, b7] :: chunkBytes rest =
      specChunks (b0 :: b1 :: b2 :: b3 :: b4 :: b5 :: b6 :: b7 :: rest)
    rw [specChunks, dif_pos (by simp)]
    simp only [List.take_succ_cons, List.take_zero, List.drop_succ_cons,
      List.drop_zero]
    rw [ih]
  | case2 l h =>
    rcases l with _ | ⟨b0, _ | ⟨b1, _ | ⟨b2, _ | ⟨b3, _ | ⟨b4, _ | ⟨b5, _ | ⟨b6, _ | ⟨b7, rest⟩⟩⟩⟩⟩⟩⟩⟩
    · rw [specChunks, dif_neg (by simp)]; rfl
    · rw [specChunks, dif_neg (by simp)]; rfl
    · rw [specChunks, dif_neg (by simp)]; rfl
    · rw [specChunks, dif_neg (by simp)]; rfl
    · rw [specChunks, dif_neg (by simp)]; rfl
    · rw [specChunks, dif_neg (by simp)]; rfl
    · rw [specChunks, dif_neg (by simp)]; rfl
    · rw [specChunks, dif_neg (by simp)]; rfl
    · exact absurd rfl (h b0 b1 b2 b3 b4 b5 b6 b7 rest)

end Cipherseal

/-! ## Claim theorems -/

namespace Cipherseal

/-- C1: Round-trip — for every RGB image, payload and key such that the
payload's UTF-8 bit-length plus the 16-bit delimiter fits in
`width*height*3` bits and the extraction bound
`expectedMaxLenChars*8*2 + 16` is at least the payload bit-length plus
16, `detect_watermark_image` with the same key applied to the image
produced by `add_watermark_image` returns exactly the payload. -/
theorem C1_roundtrip (img : Img) (w h : Nat) (payload key : String)
    (c : Nat) (out : Img)
    (hcap : (str_to_binary payload).length + 16 ≤ w * h * 3)
    (hbound : (str_to_binary payload).length + 16 ≤ c * 8 * 2 + 16)
    (hadd : add_watermark_image img w h payload key = some out) :
    detect_watermark_image out w h key c = some payload := by
  rw [add_eq_some img w h payload key hcap] at hadd
  injection hadd with hadd
  rw [← hadd]
  exact detect_embed img w h payload key key c rfl hcap hbound

/-- Witness for C1 at the spec's concrete scenario: a 10 by 10 image,
key "k1", payload "hi", bound 10. -/
theorem C1_roundtrip_witness :
    ((str_to_binary "hi").length + 16 ≤ 10 * 10 * 3) ∧
    ((str_to_binary "hi").length + 16 ≤ 10 * 8 * 2 + 16) ∧
    detect_watermark_image
      (embedBits (fun _ _ => (0, 0, 0)) (core.get_pixel_sequence 10 10 "k1")
        (str_to_binary "hi" ++ DELIMITER)) 10 10 "k1" 10 = some "hi" :=
  ⟨by decide, by decide,
    C1_roundtrip (fun _ _ => (0, 0, 0)) 10 10 "hi" "k1" 10 _ (by decide)
      (by decide) (add_eq_some _ 10 10 "hi" "k1" (by decide))⟩

/-- C2: the generator is deterministic, its sequence has length
`width*height*3`, and it contains every triple `(x, y, channel)` with
`x < width`, `y < height`, `channel < 3` exactly once. -/
theorem C2_generator_exact_cover : ∀ (w h : Nat) (key : String),
    core.get_pixel_sequence w h key = core.get_pixel_sequence w h key ∧
    (core.get_pixel_sequence w h key).length = w * h * 3 ∧
    ∀ x y c : Nat,
      ((core.get_pixel_sequence w h key).count (x, y, c) = 1 ↔
        x < w ∧ y < h ∧ c < 3) :=
  fun w h key => ⟨rfl, core_gps_length w h key, fun _ _ _ => core_gps_count⟩

set_option maxRecDepth 100000 in
/-- C3 counterexample: at width 2, height 1, key "k", the source's
sequence differs from the spec's four-step algorithm (the single
shuffle with no prior draws), because the code first shuffles and
discards the `(x, y)` coordinate list with the same generator. -/
theorem C3_counterexample :
    core.get_pixel_sequence 2 1 "k" ≠ specGenerate 2 1 "k" := by
  decide

/-- C3 (amended): the sequence equals the spec's four-step algorithm
amended with the coordinate pre-shuffle the code performs between
seeding and the location shuffle. -/
theorem C3_amended_generator :
    ∀ (w h : Nat) (key : String),
      core.get_pixel_sequence w h key = specGenerateWithCoordShuffle w h key :=
  fun _ _ _ => rfl

/-- C4 counterexample: at width 2, height 1, key "k" the api generator
and the core generator return different sequences (the api one contains
`(0, 1, 2)`, which lies outside the core sequence's triples). -/
theorem C4_counterexample :
    api.get_pixel_sequence 2 1 "k" ≠ core.get_pixel_sequence 2 1 "k" := by
  intro heq
  have h1 : ((0 : Nat), (1 : Nat), (2 : Nat)) ∈ api.get_pixel_sequence 2 1 "k" :=
    api_gps_mem.mpr ⟨by omega, by omega, by omega⟩
  rw [heq] at h1
  have h2 := core_gps_mem.mp h1
  omega

/-- C4 (amended): the two generators agree in length (both
`width*height*3`) and each is a permutation of its own triple list —
`(x, y, channel)` for the core version, `(y, x, channel)` for the api
version — but they are not the identical sequence in general. -/
theorem C4_amended_generators :
    ∀ (w h : Nat) (key : String),
      (api.get_pixel_sequence w h key).length =
        (core.get_pixel_sequence w h key).length ∧
      (api.get_pixel_sequence w h key).Perm (api.buildLocationsYX w h) ∧
      (core.get_pixel_sequence w h key).Perm (buildLocations w h) :=
  fun w h key =>
    ⟨by rw [api_gps_length, core_gps_length], api_gps_perm w h key,
      core_gps_perm w h key⟩

/-- C5: capacity boundary — embedding fails exactly when the payload's
UTF-8 bit-length plus the 16 delimiter bits exceeds `width*height*3`;
in particular any embed onto a zero-pixel image fails. -/
theorem C5_capacity : ∀ (img : Img) (w h : Nat) (payload key : String),
    (add_watermark_image img w h payload key = none ↔
      w * h * 3 < (str_to_binary payload).length + 16) ∧
    (w * h = 0 → add_watermark_image img w h payload key = none) := by
  intro img w h payload key
  constructor
  · constructor
    · intro hnone
      by_contra hcap
      push_neg at hcap
      rw [add_eq_some img w h payload key hcap] at hnone
      exact absurd hnone (by simp)
    · exact add_eq_none img w h payload key
  · intro h0
    apply add_eq_none
    omega

/-- Witness for C5: a 3-bit image cannot hold "hi", and a zero-width
image cannot hold anything. -/
theorem C5_capacity_witness :
    add_watermark_image (fun _ _ => (0, 0, 0)) 1 1 "hi" "k" = none ∧
    add_watermark_image (fun _ _ => (0, 0, 0)) 0 5 "hi" "k" = none :=
  ⟨(C5_capacity (fun _ _ => (0, 0, 0)) 1 1 "hi" "k").1.mpr (by decide),
   (C5_capacity (fun _ _ => (0, 0, 0)) 0 5 "hi" "k").2 (by decide)⟩

end Cipherseal

namespace Cipherseal

/-- C6: bounded decode — detection returns not-found exactly when the
16-bit delimiter never appears as the trailing bits of the extracted
LSB stream within the first `expectedMaxLenChars*8*2 + 16` bits read
along the generated sequence; at the first position where it does
appear, detection returns the bits before it decoded as text. -/
theorem C6_bounded_decode : ∀ (img : Img) (w h : Nat) (key : String) (c : Nat),
    (detect_watermark_image img w h key c = none ↔
      ∀ m, 1 ≤ m → m ≤ c * 8 * 2 + 16 →
        m ≤ (core.get_pixel_sequence w h key).length →
        ¬ DELIMITER <:+
          (((core.get_pixel_sequence w h key).map (extractedBit img)).take m)) ∧
    (∀ m, 1 ≤ m → m ≤ c * 8 * 2 + 16 →
      m ≤ (core.get_pixel_sequence w h key).length →
      DELIMITER <:+
        (((core.get_pixel_sequence w h key).map (extractedBit img)).take m) →
      (∀ m', 1 ≤ m' → m' < m →
        ¬ DELIMITER <:+
          (((core.get_pixel_sequence w h key).map (extractedBit img)).take m')) →
      detect_watermark_image img w h key c =
        some (binary_to_str_string
          ((((core.get_pixel_sequence w h key).map (extractedBit img)).take m).take
            (m - 16)))) := by
  intro img w h key c
  have hdet : detect_watermark_image img w h key c =
      (extractBits img (core.get_pixel_sequence w h key) [] (c * 8 * 2 + 16)).map
        binary_to_str_string := by
    rw [detect_watermark_image, delim_length]
  constructor
  · rw [hdet]
    constructor
    · intro hnone m h1 h2 h3
      have hx : extractBits img (core.get_pixel_sequence w h key) []
          (c * 8 * 2 + 16) = none := by
        cases hx : extractBits img (core.get_pixel_sequence w h key) []
            (c * 8 * 2 + 16) with
        | none => rfl
        | some v => rw [hx] at hnone; exact absurd hnone (by simp)
      rw [extractBits_eq_none] at hx
      have := hx m h1 h2 h3
      simpa using this
    · intro hall
      have hx : extractBits img (core.get_pixel_sequence w h key) []
          (c * 8 * 2 + 16) = none := by
        rw [extractBits_eq_none]
        intro m h1 h2 h3
        simpa using hall m h1 h2 h3
      rw [hx]
      rfl
  · intro m h1 h2 h3 hdel hmin
    rw [hdet]
    have hx : extractBits img (core.get_pixel_sequence w h key) []
        (c * 8 * 2 + 16) =
        some ((((core.get_pixel_sequence w h key).map (extractedBit img)).take m).take
          (m - 16)) := by
      rw [extractBits_eq_some]
      refine ⟨m, h1, h2, h3, by simpa using hdel,
        (fun m' hm1 hm2 => by simpa using hmin m' hm1 hm2), by simp⟩
    rw [hx]
    rfl

/-- Witness for C6 on a zero-pixel image, whose sequence is empty, so
detection returns not-found. -/
theorem C6_bounded_decode_witness :
    detect_watermark_image (fun _ _ => (0, 0, 0)) 0 0 "k" 0 = none := by
  have h := (C6_bounded_decode (fun _ _ => (0, 0, 0)) 0 0 "k" 0).1.mpr
  apply h
  intro m h1 _ h3 _
  rw [core_gps_length] at h3
  omega

/-- C7: frame condition of encode — on success, the LSB stream read
along the first `n` generated locations equals the binary watermark
(payload bits plus delimiter), every channel value at a location
outside those first `n` is unchanged, and the upper seven bits of every
channel value are unchanged everywhere. -/
theorem C7_frame : ∀ (img : Img) (w h : Nat) (payload key : String) (out : Img),
    add_watermark_image img w h payload key = some out →
    (((core.get_pixel_sequence w h key).map (extractedBit out)).take
        (str_to_binary payload ++ DELIMITER).length =
      str_to_binary payload ++ DELIMITER) ∧
    (∀ x y c : Nat, c < 3 →
      (x, y, c) ∉ (core.get_pixel_sequence w h key).take
        (str_to_binary payload ++ DELIMITER).length →
      getChannel (out x y) c = getChannel (img x y) c) ∧
    (∀ x y c : Nat, c < 3 →
      getChannel (out x y) c / 2 = getChannel (img x y) c / 2) := by
  intro img w h payload key out hadd
  have hcap : (str_to_binary payload).length + 16 ≤ w * h * 3 := by
    by_contra hlt
    push_neg at hlt
    rw [add_eq_none img w h payload key hlt] at hadd
    exact absurd hadd (by simp)
  rw [add_eq_some img w h payload key hcap] at hadd
  injection hadd with hadd
  rw [← hadd]
  have hbw := bw_length payload
  have hlen := core_gps_length w h key
  refine ⟨?_, ?_, ?_⟩
  · exact embedBits_read _ _ _ (core_gps_nodup w h key) channels_lt_three (by omega)
  · intro x y c hc hnot
    exact embedBits_frame _ _ _ channels_lt_three x y c hc hnot
  · intro x y c hc
    exact embedBits_div2 _ _ _ channels_lt_three x y c hc

/-- Witness for C7: the empty payload on a 3 by 2 image; the first 16
locations carry exactly the delimiter bits. -/
theorem C7_frame_witness :
    add_watermark_image (fun _ _ => (0, 0, 0)) 3 2 "" "k" =
      some (embedBits (fun _ _ => (0, 0, 0)) (core.get_pixel_sequence 3 2 "k")
        (str_to_binary "" ++ DELIMITER)) ∧
    ((core.get_pixel_sequence 3 2 "k").map
        (extractedBit (embedBits (fun _ _ => (0, 0, 0))
          (core.get_pixel_sequence 3 2 "k") (str_to_binary "" ++ DELIMITER)))).take
        (str_to_binary "" ++ DELIMITER).length =
      str_to_binary "" ++ DELIMITER :=
  ⟨add_eq_some _ 3 2 "" "k" (by decide),
   (C7_frame (fun _ _ => (0, 0, 0)) 3 2 "" "k" _
     (add_eq_some _ 3 2 "" "k" (by decide))).1⟩

/-- C8: empty payload — on any image with at least 16 bit slots,
embedding the empty string succeeds writing only the 16 delimiter bits,
and detection on the result returns the empty string, not not-found. -/
theorem C8_empty_payload : ∀ (img : Img) (w h : Nat) (key : String) (c : Nat),
    16 ≤ w * h * 3 →
    add_watermark_image img w h "" key =
      some (embedBits img (core.get_pixel_sequence w h key) DELIMITER) ∧
    detect_watermark_image
      (embedBits img (core.get_pixel_sequence w h key) DELIMITER) w h key c =
      some "" := by
  intro img w h key c h16
  have hz : str_to_binary "" = [] := rfl
  have h1 := add_eq_some img w h "" key (by rw [hz]; simpa using h16)
  rw [hz, List.nil_append] at h1
  refine ⟨h1, ?_⟩
  have h2 := detect_embed img w h "" key key c rfl
    (by rw [hz]; simpa using h16) (by rw [hz]; simp)
  rw [hz, List.nil_append] at h2
  exact h2

/-- Witness for C8 on a 3 by 2 image with key "k". -/
theorem C8_empty_payload_witness :
    16 ≤ 3 * 2 * 3 ∧
    detect_watermark_image
      (embedBits (fun _ _ => (0, 0, 0)) (core.get_pixel_sequence 3 2 "k")
        DELIMITER) 3 2 "k" 0 = some "" :=
  ⟨by decide,
   (C8_empty_payload (fun _ _ => (0, 0, 0)) 3 2 "k" 0 (by decide)).2⟩

/-- C9: `_binary_to_str` is total and equals the spec's pipeline —
truncate the bit string to the largest multiple of 8 bits, assemble the
bytes, and decode them as UTF-8 with malformed sequences lossily
replaced. -/
theorem C9_binary_to_str_spec : ∀ bits : List Bool,
    binary_to_str bits =
      utf8DecodeLossy (specChunks (bits.take (8 * (bits.length / 8)))) := by
  intro bits
  simp only [binary_to_str]
  by_cases hmod : bits.length % 8 = 0
  · rw [if_neg (by simp [hmod])]
    rw [chunkBytes_eq_specChunks]
    rw [show 8 * (bits.length / 8) = bits.length by omega, List.take_length]
  · rw [if_pos (by simpa using hmod)]
    rw [chunkBytes_eq_specChunks, Nat.mul_comm]

/-- C10: seed-fold key collisions — prepending a NUL character to any
key folds to the same 32-bit seed, hence generates the identical
location sequence; and for any two keys with equal folded seeds, a
watermark embedded under one key is recovered under the other. -/
theorem C10_seed_collision :
    (∀ k : String, seedFold (utf8Encode ("\x00" ++ k)) = seedFold (utf8Encode k)) ∧
    (∀ (w h : Nat) (k : String),
      core.get_pixel_sequence w h ("\x00" ++ k) = core.get_pixel_sequence w h k) ∧
    (∀ (img : Img) (w h : Nat) (payload k1 k2 : String) (c : Nat) (out : Img),
      seedFold (utf8Encode k1) = seedFold (utf8Encode k2) →
      (str_to_binary payload).length + 16 ≤ w * h * 3 →
      (str_to_binary payload).length + 16 ≤ c * 8 * 2 + 16 →
      add_watermark_image img w h payload k1 = some out →
      detect_watermark_image out w h k2 c = some payload) := by
  refine ⟨seedFold_nul, fun w h k => gps_of_seedFold w h (seedFold_nul k), ?_⟩
  intro img w h payload k1 k2 c out hseed hcap hbound hadd
  rw [add_eq_some img w h payload k1 hcap] at hadd
  injection hadd with hadd
  rw [← hadd]
  exact detect_embed img w h payload k1 k2 c (gps_of_seedFold w h hseed.symm)
    hcap hbound

/-- Witness for C10: the keys "k" and "\x00k" fold to the same seed,
and a watermark embedded under "k" is recovered under "\x00k". -/
theorem C10_seed_collision_witness :
    seedFold (utf8Encode "k") = seedFold (utf8Encode "\x00k") ∧
    ((str_to_binary "").length + 16 ≤ 3 * 2 * 3) ∧
    ((str_to_binary "").length + 16 ≤ 0 * 8 * 2 + 16) ∧
    detect_watermark_image
      (embedBits (fun _ _ => (0, 0, 0)) (core.get_pixel_sequence 3 2 "k")
        (str_to_binary "" ++ DELIMITER)) 3 2 "\x00k" 0 = some "" :=
  ⟨by decide, by decide, by decide,
    C10_seed_collision.2.2 (fun _ _ => (0, 0, 0)) 3 2 "" "k" "\x00k" 0 _
      (by decide) (by decide) (by decide)
      (add_eq_some _ 3 2 "" "k" (by decide))⟩

end Cipherseal
